import Mathlib

/-!
Verification of the K-plane multiscale feature encoder in
`custom/triplane/geometry/utils.py` (class `KPlane`, functions
`grid_sample_wrapper`, `KPlane._init_grid_param`,
`KPlane._interpolate_ms_feature`).

The development embeds the source shallowly:
* `combinations` embeds `itertools.combinations` over an index list;
* the construction path (`KPlane.__init__` / `_init_grid_param`) is embedded
  at the level of tensor shapes, with Python `assert` failures modelled as
  `Except` errors;
* the forward path (`_interpolate_ms_feature` / `grid_sample_wrapper`) is
  embedded twice: once at shape level (mirroring every reshape, squeeze
  and broadcast of the source) and once at value level over `ℚ`, where the
  call `F.grid_sample(..., align_corners=True, mode='bilinear',
  padding_mode='border')` is given PyTorch's documented border-clamped,
  corner-aligned bilinear semantics.
-/

namespace KPlaneSpec

/-! ## itertools.combinations

`combinations k l` lists all length-`k` subsequences of `l` in the order
produced by Python's `itertools.combinations`. -/

def combinations : ℕ → List ℕ → List (List ℕ)
  | 0, _ => [[]]
  | _ + 1, [] => []
  | k + 1, x :: xs => (combinations k xs).map (x :: ·) ++ combinations (k + 1) xs

theorem length_of_mem_combinations :
    ∀ (k : ℕ) (l : List ℕ) (c : List ℕ), c ∈ combinations k l → c.length = k := by
  intro k
  induction k with
  | zero =>
    intro l c hc
    simp [combinations] at hc
    simp [hc]
  | succ k ih =>
    intro l
    induction l with
    | nil => intro c hc; simp [combinations] at hc
    | cons x xs ihl =>
      intro c hc
      simp only [combinations, List.mem_append, List.mem_map] at hc
      rcases hc with ⟨a, ha, rfl⟩ | hc
      · simp [ih xs a ha]
      · exact ihl c hc

theorem sublist_of_mem_combinations :
    ∀ (k : ℕ) (l : List ℕ) (c : List ℕ), c ∈ combinations k l → c.Sublist l := by
  intro k
  induction k with
  | zero =>
    intro l c hc
    simp [combinations] at hc
    simp [hc]
  | succ k ih =>
    intro l
    induction l with
    | nil => intro c hc; simp [combinations] at hc
    | cons x xs ihl =>
      intro c hc
      simp only [combinations, List.mem_append, List.mem_map] at hc
      rcases hc with ⟨a, ha, rfl⟩ | hc
      · exact List.Sublist.cons₂ x (ih xs a ha)
      · exact List.Sublist.cons x (ihl c hc)

theorem length_combinations :
    ∀ (k : ℕ) (l : List ℕ), (combinations k l).length = l.length.choose k := by
  intro k
  induction k with
  | zero => intro l; simp [combinations]
  | succ k ih =>
    intro l
    induction l with
    | nil => simp [combinations]
    | cons x xs ihl =>
      simp only [combinations, List.length_append, List.length_map, ih, ihl,
        List.length_cons, Nat.choose_succ_succ]

/-- Combinations of a strictly increasing list are strictly increasing in the
lexicographic order: `itertools.combinations` emits them lexicographically. -/
theorem combinations_sorted_lex :
    ∀ (k : ℕ) (l : List ℕ), l.Pairwise (· < ·) →
      (combinations k l).Pairwise (List.Lex (· < ·)) := by
  intro k
  induction k with
  | zero => intro l _; simp [combinations]
  | succ k ih =>
    intro l
    induction l with
    | nil => intro _; simp [combinations]
    | cons x xs ihl =>
      intro hl
      have hl' : xs.Pairwise (· < ·) := (List.pairwise_cons.mp hl).2
      have hx : ∀ y ∈ xs, x < y := (List.pairwise_cons.mp hl).1
      simp only [combinations]
      rw [List.pairwise_append]
      refine ⟨?_, ihl hl', ?_⟩
      · rw [List.pairwise_map]
        exact (ih xs hl').imp (fun h => List.Lex.cons h)
      · intro a ha b hb
        rcases List.mem_map.mp ha with ⟨a', _, rfl⟩
        have hblen : b.length = k + 1 := length_of_mem_combinations _ _ _ hb
        have hbsub : b.Sublist xs := sublist_of_mem_combinations _ _ _ hb
        cases b with
        | nil => simp at hblen
        | cons y ys =>
          have hy : y ∈ xs := hbsub.subset (List.mem_cons_self y ys)
          exact List.Lex.rel (hx y hy)

/-! ## Configuration and construction (`KPlane.__init__`, `_init_grid_param`)

`GridConfig` embeds the `grid_config` dictionary, `Config` the top-level
configuration object.  Python `assert` failures at construction (the spec's
ConfigurationError) and the `NotImplementedError` of `grid_sample_wrapper`
(the spec's UnsupportedDimensionError) become constructors of `KErr`;
`runtimeError` stands for any other torch runtime failure (rank/batch
mismatches, illegal `view`s). -/

structure GridConfig where
  grid_dimensions : ℕ
  input_coordinate_dim : ℕ
  output_coordinate_dim : ℕ
  resolution : List ℕ
deriving Repr, DecidableEq

structure Config where
  grid_config : GridConfig
  multiscale_res : List ℕ
  concat_features_across_scales : Bool
deriving Repr, DecidableEq

inductive KErr where
  | configurationError
  | unsupportedDim
  | runtimeError
deriving Repr, DecidableEq

/-- Per-scale resolution derived from the base resolution for multiplier
`m`: the source line `config["resolution"] = [r * res for r in
config["resolution"][:3]] + config["resolution"][3:]`. -/
def derivedReso (m : ℕ) (r : List ℕ) : List ℕ :=
  (r.take 3).map (· * m) ++ r.drop 3

/-- Shape-level embedding of `KPlane._init_grid_param` (with the default
`n_components = 1`): the two `assert`s, then one plane per axis-combination
with shape `[n_components, out_dim] + [reso[cc] for cc in coo_comb[::-1]]`. -/
def init_grid_param (grid_nd in_dim out_dim : ℕ) (reso : List ℕ) :
    Except KErr (List (List ℕ)) :=
  if in_dim = reso.length then
    if grid_nd ≤ in_dim then
      .ok ((combinations grid_nd (List.range in_dim)).map
        (fun c => 1 :: out_dim :: c.reverse.map (fun cc => reso.getD cc 0)))
    else .error .configurationError
  else .error .configurationError

structure KPlane where
  n_output_dims : ℕ
  n_input_dims : ℕ
  concat_features : Bool
  grid_dimensions : ℕ
  output_coordinate_dim : ℕ
  grids : List (List (List ℕ))
deriving Repr, DecidableEq

/-- Embeds `self.multiscale_res_multipliers = config.multiscale_res or [1]`
(a Python empty list is falsy). -/
def multipliersOf (cfg : Config) : List ℕ :=
  if cfg.multiscale_res = [] then [1] else cfg.multiscale_res

/-- Embeds the per-multiplier loop body of `KPlane.__init__`: each scale's
grid is built by `_init_grid_param` from the resolution derived from the
base `grid_config` (the config is re-copied from `self.grid_config` on
every iteration, so scaling is never cumulative). -/
def initScales (gc : GridConfig) : List ℕ → Except KErr (List (List (List ℕ)))
  | [] => .ok []
  | m :: ms => do
    let gp ← init_grid_param gc.grid_dimensions gc.input_coordinate_dim
      gc.output_coordinate_dim (derivedReso m gc.resolution)
    let rest ← initScales gc ms
    .ok (gp :: rest)

/-- Shape-level embedding of `KPlane.__init__`: `n_output_dims` is
`output_coordinate_dim * len(config.multiscale_res)` when
`concat_features_across_scales` else `output_coordinate_dim`; one grid of
planes per multiplier, each built by `_init_grid_param` from the per-scale
derived resolution. -/
def KPlane.ofConfig (in_channels : ℕ) (cfg : Config) : Except KErr KPlane := do
  let n_out :=
    if cfg.concat_features_across_scales then
      cfg.grid_config.output_coordinate_dim * cfg.multiscale_res.length
    else
      cfg.grid_config.output_coordinate_dim
  let grids ← initScales cfg.grid_config (multipliersOf cfg)
  .ok { n_output_dims := n_out
        n_input_dims := in_channels
        concat_features := cfg.concat_features_across_scales
        grid_dimensions := cfg.grid_config.grid_dimensions
        output_coordinate_dim := cfg.grid_config.output_coordinate_dim
        grids := grids }

/-! ## Shape semantics of the forward path

Tensor shapes are `List ℕ`.  `gswShape` mirrors `grid_sample_wrapper`
line by line: the `grid_dim = coords.shape[-1]` read, the two unsqueezes,
the 2D/3D dispatch (`NotImplementedError` ↦ `unsupportedDim`), the
`coords.view`, the `F.grid_sample` call (shape/batch checks per the torch
contract: input `[N,C,H,W]` with grid `[N,Ho,Wo,2]`, or input
`[N,C,D,H,W]` with grid `[N,Do,Ho,Wo,3]`), the `view(B, feature_dim, n)`,
the `transpose(-1, -2)` and the final `squeeze()`. -/

/-- Squeeze semantics of `torch.Tensor.squeeze()`: drop every size-1 axis. -/
def squeezeShape (s : List ℕ) : List ℕ := s.filter (· ≠ 1)

/-- Shape/batch contract of `F.grid_sample` (bilinear, 2-D or 3-D). -/
def gridSampleShape (input grid : List ℕ) : Except KErr (List ℕ) :=
  match input, grid with
  | [b, c, _, _], [b2, ho, wo, two] =>
    if two = 2 ∧ b2 = b then .ok [b, c, ho, wo] else .error .runtimeError
  | [b, c, _, _, _], [b2, dd, ho, wo, three] =>
    if three = 3 ∧ b2 = b then .ok [b, c, dd, ho, wo] else .error .runtimeError
  | _, _ => .error .runtimeError

/-- Shape of the `coords.view([coords.shape[0]] + [1] * (grid_dim - 1) +
list(coords.shape[1:]))` reshape. -/
def viewCoords (gd : ℕ) : List ℕ → List ℕ
  | [] => []
  | c0 :: crest => c0 :: (List.replicate (gd - 1) 1 ++ crest)

/-- Tail of `grid_sample_wrapper` after the sampler call: the
`view(B, feature_dim, n)` (legal exactly when the element counts agree),
the rank-preserving `transpose(-1, -2)` to `[B, n, feature_dim]`, and the
final `squeeze()`. -/
def gswTail (r : Except KErr (List ℕ)) (b fd n : ℕ) : Except KErr (List ℕ) :=
  match r with
  | .error e => .error e
  | .ok outS =>
    if outS.prod = b * fd * n then .ok (squeezeShape [b, n, fd])
    else .error .runtimeError

/-- Shape-level embedding of `grid_sample_wrapper`. -/
def gswShape (gridShape coordsShape : List ℕ) : Except KErr (List ℕ) :=
  let gd := coordsShape.getLastD 0
  let g1 := if gridShape.length = gd + 1 then 1 :: gridShape else gridShape
  let c1 := if coordsShape.length = 2 then 1 :: coordsShape else coordsShape
  if gd = 2 ∨ gd = 3 then
    match c1, g1 with
    | c0 :: crest, b :: fd :: grest =>
      gswTail (gridSampleShape (b :: fd :: grest) (viewCoords gd (c0 :: crest)))
        b fd
        ((viewCoords gd (c0 :: crest)).getD
          ((viewCoords gd (c0 :: crest)).length - 2) 0)
    | _, _ => .error .runtimeError
  else .error .unsupportedDim

/-- Reshape semantics of `torch.Tensor.view(-1, fd)`: legal when the element
count is divisible by `fd`. -/
def viewFlat (s : List ℕ) (fd : ℕ) : Except KErr (List ℕ) :=
  if fd ≠ 0 ∧ s.prod % fd = 0 then .ok [s.prod / fd, fd] else .error .runtimeError

/-- Broadcast of two shapes already reversed (aligned from the left). -/
def broadcastRev : List ℕ → List ℕ → Except KErr (List ℕ)
  | [], ys => .ok ys
  | x :: xs, [] => .ok (x :: xs)
  | x :: xs, y :: ys =>
    match broadcastRev xs ys with
    | .error e => .error e
    | .ok r =>
      if x = y then .ok (x :: r)
      else if x = 1 then .ok (y :: r)
      else if y = 1 then .ok (x :: r)
      else .error .runtimeError

/-- Elementwise-broadcast shape of `a * b` / `a + b`. -/
def broadcastShapes (a b : List ℕ) : Except KErr (List ℕ) :=
  match broadcastRev a.reverse b.reverse with
  | .error e => .error e
  | .ok r => .ok r.reverse

/-- A Python float scalar accumulator (`1.` / `0.`) is `none`; once a tensor
has been folded in, the accumulator carries its shape. -/
def accMul (acc : Option (List ℕ)) (s : List ℕ) : Except KErr (Option (List ℕ)) :=
  match acc with
  | none => .ok (some s)
  | some a =>
    match broadcastShapes a s with
    | .error e => .error e
    | .ok r => .ok (some r)

/-- Concatenation semantics of `torch.cat(ts, dim=-1)`: same rank, equal
leading dims, last dims add. -/
def catShapes : List (List ℕ) → Except KErr (List ℕ)
  | [] => .error .runtimeError
  | s :: rest =>
    if rest.all (fun t => t.dropLast = s.dropLast ∧ t.length = s.length) then
      .ok (s.dropLast ++ [(s :: rest).foldl (fun a t => a + t.getLastD 0) 0])
    else .error .runtimeError

/-- One scale of `_interpolate_ms_feature`: `interp_space = 1.`, then for each
`(coo_comb, plane)` in step, `grid_sample_wrapper(grid[ci], pts[..., coo_comb])
.view(-1, feature_dim)` multiplied in elementwise. -/
def scaleShapeAux (ptsShape : List ℕ) (acc : Option (List ℕ)) :
    List (List ℕ × List ℕ) → Except KErr (Option (List ℕ))
  | [] => .ok acc
  | (comb, plane) :: rest =>
    match gswShape plane (ptsShape.dropLast ++ [comb.length]) with
    | .error e => .error e
    | .ok sampled =>
      match viewFlat sampled (plane.getD 1 0) with
      | .error e => .error e
      | .ok flat =>
        match accMul acc flat with
        | .error e => .error e
        | .ok acc2 => scaleShapeAux ptsShape acc2 rest

/-- Scale loop of `_interpolate_ms_feature` in the `concat_features` branch:
collect each scale's `interp_space` shape (a still-scalar `interp_space`
cannot be fed to `torch.cat`). -/
def scalesConcat (ptsShape : List ℕ) (combs : List (List ℕ)) :
    List (List (List ℕ)) → Except KErr (List (List ℕ))
  | [] => .ok []
  | grid :: gs =>
    match scaleShapeAux ptsShape none (combs.zip grid) with
    | .error e => .error e
    | .ok none => .error .runtimeError
    | .ok (some s) =>
      match scalesConcat ptsShape combs gs with
      | .error e => .error e
      | .ok rest => .ok (s :: rest)

/-- Scale loop of `_interpolate_ms_feature` in the summing branch:
`multi_scale_interp` starts at the Python float `0.` (`none`) and each
scale's `interp_space` is added in with broadcasting. -/
def scalesSum (ptsShape : List ℕ) (combs : List (List ℕ))
    (acc : Option (List ℕ)) :
    List (List (List ℕ)) → Except KErr (Option (List ℕ))
  | [] => .ok acc
  | grid :: gs =>
    match scaleShapeAux ptsShape none (combs.zip grid) with
    | .error e => .error e
    | .ok none => scalesSum ptsShape combs acc gs
    | .ok (some s) =>
      match accMul acc s with
      | .error e => .error e
      | .ok acc2 => scalesSum ptsShape combs acc2 gs

/-- Shape-level embedding of `_interpolate_ms_feature` with
`num_levels = None`: axis-combinations recomputed from `pts.shape[-1]`,
per-scale plane products, then concatenation or running sum across scales.
A still-scalar result (no scales, no planes) is reported as shape `[]`. -/
def interpolate_ms_feature_shape (ptsShape : List ℕ) (msGrids : List (List (List ℕ)))
    (grid_dimensions : ℕ) (concat_features : Bool) : Except KErr (List ℕ) :=
  let combs := combinations grid_dimensions (List.range (ptsShape.getLastD 0))
  if concat_features then
    match scalesConcat ptsShape combs msGrids with
    | .error e => .error e
    | .ok spaces => catShapes spaces
  else
    match scalesSum ptsShape combs none msGrids with
    | .error e => .error e
    | .ok none => .ok []
    | .ok (some s) => .ok s

/-- Shape-level embedding of `KPlane.forward`. -/
def KPlane.forwardShape (kp : KPlane) (ptsShape : List ℕ) : Except KErr (List ℕ) :=
  interpolate_ms_feature_shape ptsShape kp.grids kp.grid_dimensions kp.concat_features

/-! ## Value semantics of the forward path (2-D planes)

The repository uses the encoder with 2-D planes (`grid_dimensions = 2`,
the triplane configuration), so the value-level model is given for the
bilinear `F.grid_sample` path.  A plane is the parameter tensor
`[1, out_dim, H, W]` with its singleton leading component axis dropped;
values are `ℚ`.  `gridSample2d` is PyTorch's documented semantics of
`F.grid_sample(..., mode='bilinear', padding_mode='border',
align_corners=True)` on one channel and one sample: unnormalize the
coordinate with `ix = (x + 1) / 2 * (size - 1)` (corner alignment), clamp
it into `[0, size - 1]` (border padding), and blend the four surrounding
cells, out-of-range corners (which can only carry weight 0) contributing
nothing. -/

structure Plane2 where
  C : ℕ
  H : ℕ
  W : ℕ
  val : ℕ → ℕ → ℕ → ℚ

/-- Corner-aligned unnormalization of a `[-1, 1]` coordinate. -/
def unnorm (x : ℚ) (size : ℕ) : ℚ := (x + 1) / 2 * ((size : ℚ) - 1)

def clampQ (lo hi x : ℚ) : ℚ := max lo (min hi x)

/-- Border-clamped source index for one axis. -/
def srcIndex (x : ℚ) (size : ℕ) : ℚ := clampQ 0 ((size : ℚ) - 1) (unnorm x size)

/-- One grid cell, zero outside the grid extent (such corners only ever
receive interpolation weight 0). -/
def cornerVal (P : Plane2) (c : ℕ) (j i : ℤ) : ℚ :=
  if 0 ≤ j ∧ j < (P.H : ℤ) ∧ 0 ≤ i ∧ i < (P.W : ℤ) then
    P.val c j.toNat i.toNat
  else 0

/-- Four-corner bilinear blend at unnormalized source indices `(ix, iy)`:
corner weights are the products of `tx = ix - ⌊ix⌋`, `ty = iy - ⌊iy⌋` and
their complements. -/
def bilinearAt (P : Plane2) (c : ℕ) (ix iy : ℚ) : ℚ :=
  (1 - (iy - (⌊iy⌋ : ℚ))) * (1 - (ix - (⌊ix⌋ : ℚ))) * cornerVal P c ⌊iy⌋ ⌊ix⌋
    + (1 - (iy - (⌊iy⌋ : ℚ))) * (ix - (⌊ix⌋ : ℚ)) * cornerVal P c ⌊iy⌋ (⌊ix⌋ + 1)
    + (iy - (⌊iy⌋ : ℚ)) * (1 - (ix - (⌊ix⌋ : ℚ))) * cornerVal P c (⌊iy⌋ + 1) ⌊ix⌋
    + (iy - (⌊iy⌋ : ℚ)) * (ix - (⌊ix⌋ : ℚ)) * cornerVal P c (⌊iy⌋ + 1) (⌊ix⌋ + 1)

/-- Bilinear border-clamped corner-aligned sample of channel `c` at
normalized coordinates `(x, y)` (`x` indexing width, `y` height). -/
def gridSample2d (P : Plane2) (c : ℕ) (x y : ℚ) : ℚ :=
  bilinearAt P c (srcIndex x P.W) (srcIndex y P.H)

/-- Value of `grid_sample_wrapper(grid[ci], pts[..., coo_comb])` at one point
and one channel: the first coordinate of the pair (`pts[..., coo_comb[0]]`) indexes
the plane's last (width) axis — the reason `_init_grid_param` reverses the
resolution — and the second indexes height. -/
def sample2 (P : Plane2) (c : ℕ) (comb : List ℕ) (pt : ℕ → ℚ) : ℚ :=
  gridSample2d P c (pt (comb.getD 0 0)) (pt (comb.getD 1 0))

/-- One scale of `_interpolate_ms_feature` at value level: the accumulator
`interp_space` starts at the Python float `1.` and the per-plane
interpolations are multiplied in elementwise, plane `ci` paired with
axis-combination `ci`. -/
def scaleInterp (grid : List Plane2) (combs : List (List ℕ)) (pt : ℕ → ℚ)
    (c : ℕ) : ℚ :=
  (combs.zip grid).foldl (fun acc p => acc * sample2 p.2 c p.1 pt) 1

/-- Feature vector of one point: per-scale `[out_dim]` blocks concatenated
across scales, or summed elementwise when `concat_features` is false. -/
def featVec (msGrids : List (List Plane2)) (combs : List (List ℕ))
    (concat_features : Bool) (out_dim : ℕ) (pt : ℕ → ℚ) : List ℚ :=
  if concat_features then
    (msGrids.map (fun g => (List.range out_dim).map (scaleInterp g combs pt))).flatten
  else
    (List.range out_dim).map (fun c => (msGrids.map (fun g => scaleInterp g combs pt c)).sum)

/-- Value-level embedding of one `forward` call on a `[N, D]` point batch.
Every tensor operation on this path (`grid_sample`, `view`, `transpose`,
`squeeze`, `*`, `+`, `torch.cat`) is out-of-place, so the call returns the
module's plane state unchanged alongside the output. -/
def forwardCall (msGrids : List (List Plane2)) (grid_dimensions D out_dim : ℕ)
    (concat_features : Bool) (pts : List (ℕ → ℚ)) :
    List (List ℚ) × List (List Plane2) :=
  let combs := combinations grid_dimensions (List.range D)
  (pts.map (featVec msGrids combs concat_features out_dim), msGrids)

/-! ## Value semantics of plane initialization (`_init_grid_param`)

`nn.init.uniform_(t, a, b)` draws every entry independently from the
uniform distribution on `[a, b)`; the draws are modelled by an arbitrary
per-plane family `rand : ℕ → (ℕ → ℕ → ℕ → ℚ)` about which theorems assume
only the range.  `nn.init.ones_` fills with `1`. -/

/-- Guard of the all-ones branch: `has_time_planes and 3 in coo_comb`. -/
def timePlaneComb (in_dim : ℕ) (comb : List ℕ) : Bool :=
  in_dim = 4 ∧ 3 ∈ comb

/-- Value-level content of the `_init_grid_param` loop: for combination
index `ci`, either the all-ones fill or the uniform fill `rand ci`. -/
def init_grid_param_vals (grid_nd in_dim : ℕ) (rand : ℕ → ℕ → ℕ → ℕ → ℚ) :
    List (List ℕ × (ℕ → ℕ → ℕ → ℚ)) :=
  (combinations grid_nd (List.range in_dim)).enum.map
    (fun p => (p.2, if timePlaneComb in_dim p.2 then fun _ _ _ => 1 else rand p.1))

/-! ## Construction lemmas -/

theorem derivedReso_length (m : ℕ) (r : List ℕ) :
    (derivedReso m r).length = r.length := by
  simp [derivedReso]
  omega

/-- Planes built for one scale of a valid configuration: the payload of the
successful branch of `_init_grid_param` at the derived resolution. -/
def planesFor (gc : GridConfig) (m : ℕ) : List (List ℕ) :=
  (combinations gc.grid_dimensions (List.range gc.input_coordinate_dim)).map
    (fun c => 1 :: gc.output_coordinate_dim ::
      c.reverse.map (fun cc => (derivedReso m gc.resolution).getD cc 0))

theorem init_grid_param_ok (gc : GridConfig) (m : ℕ)
    (h1 : gc.resolution.length = gc.input_coordinate_dim)
    (h2 : gc.grid_dimensions ≤ gc.input_coordinate_dim) :
    init_grid_param gc.grid_dimensions gc.input_coordinate_dim
      gc.output_coordinate_dim (derivedReso m gc.resolution) =
      .ok (planesFor gc m) := by
  simp [init_grid_param, derivedReso_length, h1, h2, planesFor]

theorem init_grid_param_error (gc : GridConfig) (m : ℕ)
    (h : gc.resolution.length ≠ gc.input_coordinate_dim ∨
      gc.input_coordinate_dim < gc.grid_dimensions) :
    init_grid_param gc.grid_dimensions gc.input_coordinate_dim
      gc.output_coordinate_dim (derivedReso m gc.resolution) =
      .error .configurationError := by
  rcases h with h | h
  · rw [init_grid_param, if_neg]
    rw [derivedReso_length]
    exact fun hc => h hc.symm
  · rw [init_grid_param]
    split
    · rw [if_neg (by omega)]
    · rfl

theorem initScales_ok (gc : GridConfig)
    (h1 : gc.resolution.length = gc.input_coordinate_dim)
    (h2 : gc.grid_dimensions ≤ gc.input_coordinate_dim) :
    ∀ ms : List ℕ, initScales gc ms = .ok (ms.map (planesFor gc)) := by
  intro ms
  induction ms with
  | nil => rfl
  | cons m ms ih =>
    simp only [initScales, init_grid_param_ok gc m h1 h2, ih]
    rfl

theorem multipliersOf_ne_nil (cfg : Config) : multipliersOf cfg ≠ [] := by
  unfold multipliersOf
  split
  · simp
  · assumption

theorem ofConfig_ok (ch : ℕ) (cfg : Config)
    (h1 : cfg.grid_config.resolution.length = cfg.grid_config.input_coordinate_dim)
    (h2 : cfg.grid_config.grid_dimensions ≤ cfg.grid_config.input_coordinate_dim) :
    KPlane.ofConfig ch cfg = .ok
      { n_output_dims :=
          if cfg.concat_features_across_scales then
            cfg.grid_config.output_coordinate_dim * cfg.multiscale_res.length
          else cfg.grid_config.output_coordinate_dim
        n_input_dims := ch
        concat_features := cfg.concat_features_across_scales
        grid_dimensions := cfg.grid_config.grid_dimensions
        output_coordinate_dim := cfg.grid_config.output_coordinate_dim
        grids := (multipliersOf cfg).map (planesFor cfg.grid_config) } := by
  simp only [KPlane.ofConfig, initScales_ok cfg.grid_config h1 h2]
  rfl

theorem ofConfig_error (ch : ℕ) (cfg : Config)
    (h : cfg.grid_config.resolution.length ≠ cfg.grid_config.input_coordinate_dim ∨
      cfg.grid_config.input_coordinate_dim < cfg.grid_config.grid_dimensions) :
    KPlane.ofConfig ch cfg = .error .configurationError := by
  obtain ⟨m, ms, hms⟩ : ∃ m ms, multipliersOf cfg = m :: ms := by
    cases hm : multipliersOf cfg with
    | nil => exact absurd hm (multipliersOf_ne_nil cfg)
    | cons m ms => exact ⟨m, ms, rfl⟩
  simp only [KPlane.ofConfig, hms, initScales,
    init_grid_param_error cfg.grid_config m h]
  rfl

theorem ofConfig_ok_inv (ch : ℕ) (cfg : Config) (kp : KPlane)
    (h : KPlane.ofConfig ch cfg = .ok kp) :
    cfg.grid_config.resolution.length = cfg.grid_config.input_coordinate_dim ∧
      cfg.grid_config.grid_dimensions ≤ cfg.grid_config.input_coordinate_dim ∧
      kp = { n_output_dims :=
               if cfg.concat_features_across_scales then
                 cfg.grid_config.output_coordinate_dim * cfg.multiscale_res.length
               else cfg.grid_config.output_coordinate_dim
             n_input_dims := ch
             concat_features := cfg.concat_features_across_scales
             grid_dimensions := cfg.grid_config.grid_dimensions
             output_coordinate_dim := cfg.grid_config.output_coordinate_dim
             grids := (multipliersOf cfg).map (planesFor cfg.grid_config) } := by
  by_cases h1 : cfg.grid_config.resolution.length = cfg.grid_config.input_coordinate_dim
  · by_cases h2 : cfg.grid_config.grid_dimensions ≤ cfg.grid_config.input_coordinate_dim
    · refine ⟨h1, h2, ?_⟩
      rw [ofConfig_ok ch cfg h1 h2] at h
      exact (Except.ok.inj h).symm
    · rw [ofConfig_error ch cfg (Or.inr (lt_of_not_le h2))] at h
      cases h
  · rw [ofConfig_error ch cfg (Or.inl h1)] at h
    cases h

/-! ## Claim C1 -/

/-- Modelled from the spec's words for comparison with the source: the spec
says `n_output_dims` is `out_dim * num_scales` under concatenation, the
number of scales being the length of the multiplier list after the `[1]`
default is applied. -/
def specNOutputDims (cfg : Config) : ℕ :=
  if cfg.concat_features_across_scales then
    cfg.grid_config.output_coordinate_dim * (multipliersOf cfg).length
  else cfg.grid_config.output_coordinate_dim

/-- Valid configuration with an empty `multiscale_res` under concatenation. -/
def cfgEmptyConcat : Config :=
  { grid_config :=
      { grid_dimensions := 2
        input_coordinate_dim := 3
        output_coordinate_dim := 1
        resolution := [2, 2, 2] }
    multiscale_res := []
    concat_features_across_scales := true }

/-- C1 fails as stated: with `concat_features_across_scales` set and
`multiscale_res = []`, construction succeeds with one (defaulted) scale, yet
`n_output_dims` is `out_dim * len(multiscale_res) = 0`, not the claimed
`out_dim * num_scales = 1`. -/
theorem c1_counterexample :
    (KPlane.ofConfig 3 cfgEmptyConcat).map KPlane.n_output_dims = .ok 0 ∧
      (KPlane.ofConfig 3 cfgEmptyConcat).map
        (fun kp => kp.grids.length) = .ok 1 ∧
      specNOutputDims cfgEmptyConcat = 1 ∧ (0 : ℕ) ≠ 1 := by
  exact ⟨rfl, rfl, by decide, by decide⟩

/-- C1 (amended): at construction, `n_output_dims` equals
`output_coordinate_dim` when `concat_features_across_scales` is false and
`output_coordinate_dim * len(multiscale_res)` — the length of the raw
configured list, which is 0 when `multiscale_res` is empty — when it is
true; whenever `multiscale_res` is nonempty this coincides with the
spec's `out_dim * num_scales` with the `[1]` default, and the value is a
plain field fixed at construction. -/
theorem c1_n_output_dims (ch : ℕ) (cfg : Config) (kp : KPlane)
    (h : KPlane.ofConfig ch cfg = .ok kp) :
    kp.n_output_dims =
      (if cfg.concat_features_across_scales then
        cfg.grid_config.output_coordinate_dim * cfg.multiscale_res.length
      else cfg.grid_config.output_coordinate_dim) ∧
    kp.grids.length = (multipliersOf cfg).length ∧
    (cfg.multiscale_res ≠ [] → kp.n_output_dims = specNOutputDims cfg) ∧
    (cfg.concat_features_across_scales = true → cfg.multiscale_res ≠ [] →
      kp.n_output_dims = cfg.grid_config.output_coordinate_dim * kp.grids.length) ∧
    (cfg.concat_features_across_scales = false →
      kp.n_output_dims = cfg.grid_config.output_coordinate_dim) := by
  obtain ⟨h1, h2, rfl⟩ := ofConfig_ok_inv ch cfg kp h
  refine ⟨rfl, by simp, ?_, ?_, ?_⟩
  · intro hne
    simp [specNOutputDims, multipliersOf, hne]
  · intro hc hne
    simp [hc, multipliersOf, hne]
  · intro hc
    simp [hc]

/-! ## Claim C3 -/

/-- C3: construction fails with a ConfigurationError exactly when
`len(resolution) ≠ input_coordinate_dim` or
`grid_dimensions > input_coordinate_dim`, detected at construction, and
succeeds whenever both preconditions hold. -/
theorem c3_construction_preconditions (ch : ℕ) (cfg : Config) :
    (cfg.grid_config.resolution.length ≠ cfg.grid_config.input_coordinate_dim →
      KPlane.ofConfig ch cfg = .error .configurationError) ∧
    (cfg.grid_config.input_coordinate_dim < cfg.grid_config.grid_dimensions →
      KPlane.ofConfig ch cfg = .error .configurationError) ∧
    (cfg.grid_config.resolution.length = cfg.grid_config.input_coordinate_dim →
      cfg.grid_config.grid_dimensions ≤ cfg.grid_config.input_coordinate_dim →
      ∃ kp, KPlane.ofConfig ch cfg = .ok kp) := by
  refine ⟨fun h => ofConfig_error ch cfg (Or.inl h),
    fun h => ofConfig_error ch cfg (Or.inr h),
    fun h1 h2 => ⟨_, ofConfig_ok ch cfg h1 h2⟩⟩

/-- Witness for C3: a bad-resolution config, a bad-grid-dimension config and
a valid config, all concrete. -/
theorem c3_construction_preconditions_witness :
    KPlane.ofConfig 3
      { grid_config :=
          { grid_dimensions := 2
            input_coordinate_dim := 3
            output_coordinate_dim := 2
            resolution := [4, 4] }
        multiscale_res := [1]
        concat_features_across_scales := false } = .error .configurationError ∧
    KPlane.ofConfig 3
      { grid_config :=
          { grid_dimensions := 4
            input_coordinate_dim := 3
            output_coordinate_dim := 2
            resolution := [4, 4, 4] }
        multiscale_res := [1]
        concat_features_across_scales := false } = .error .configurationError ∧
    ∃ kp, KPlane.ofConfig 3
      { grid_config :=
          { grid_dimensions := 2
            input_coordinate_dim := 3
            output_coordinate_dim := 2
            resolution := [4, 4, 4] }
        multiscale_res := [1]
        concat_features_across_scales := false } = .ok kp := by
  refine ⟨(c3_construction_preconditions 3 _).1 (by decide),
    (c3_construction_preconditions 3 _).2.1 (by decide),
    (c3_construction_preconditions 3 _).2.2 (by decide) (by decide)⟩

/-! ## Claims C5, C6, C7 -/

/-- Encoder constructed from a configuration, with an arbitrary placeholder
for the failing case; used to state closed witnesses about successful
constructions. -/
def theKP (ch : ℕ) (cfg : Config) : KPlane :=
  match KPlane.ofConfig ch cfg with
  | .ok kp => kp
  | .error _ =>
    { n_output_dims := 0
      n_input_dims := 0
      concat_features := false
      grid_dimensions := 0
      output_coordinate_dim := 0
      grids := [] }

/-- C5: for every valid configuration, each scale holds one plane per
K-subset of `{0, ..., D-1}`, indexed parallel to the combination list, the
plane for combination `c` having shape
`[1, out_dim] ++ (derived resolution at the reversed axes)`; the list has
exactly `C(D, K)` entries, is lexicographically increasing, and for
`D = 3, K = 2` is exactly `(0,1), (0,2), (1,2)`. -/
theorem c5_grid_decomposition (ch : ℕ) (cfg : Config) (kp : KPlane)
    (h : KPlane.ofConfig ch cfg = .ok kp) :
    kp.grids.length = (multipliersOf cfg).length ∧
    (∀ s, s < kp.grids.length →
      kp.grids.getD s [] =
        (combinations cfg.grid_config.grid_dimensions
            (List.range cfg.grid_config.input_coordinate_dim)).map
          (fun c => 1 :: cfg.grid_config.output_coordinate_dim ::
            c.reverse.map (fun cc =>
              (derivedReso ((multipliersOf cfg).getD s 0)
                cfg.grid_config.resolution).getD cc 0))) ∧
    (combinations cfg.grid_config.grid_dimensions
        (List.range cfg.grid_config.input_coordinate_dim)).length =
      cfg.grid_config.input_coordinate_dim.choose
        cfg.grid_config.grid_dimensions ∧
    (combinations cfg.grid_config.grid_dimensions
        (List.range cfg.grid_config.input_coordinate_dim)).Pairwise
      (List.Lex (· < ·)) ∧
    combinations 2 (List.range 3) = [[0, 1], [0, 2], [1, 2]] := by
  obtain ⟨h1, h2, rfl⟩ := ofConfig_ok_inv ch cfg kp h
  refine ⟨by simp, ?_, ?_, ?_, by decide⟩
  · intro s hs
    have hs' : s < (multipliersOf cfg).length := by simpa using hs
    rw [List.getD_eq_getElem?_getD, List.getElem?_map,
      List.getElem?_eq_getElem hs', List.getD_eq_getElem?_getD,
      List.getElem?_eq_getElem hs']
    simp [planesFor]
  · rw [length_combinations, List.length_range]
  · exact combinations_sorted_lex _ _ (List.pairwise_lt_range _)

/-- Configuration used by several witnesses: the triplane layout `D = 3`,
`K = 2`, `out_dim = 2` at base resolution `[3, 4, 5]`. -/
def cfgTriplane : Config :=
  { grid_config :=
      { grid_dimensions := 2
        input_coordinate_dim := 3
        output_coordinate_dim := 2
        resolution := [3, 4, 5] }
    multiscale_res := [1, 2]
    concat_features_across_scales := true }

/-- Witness for C5 at the concrete triplane configuration. -/
theorem c5_grid_decomposition_witness :
    (theKP 3 cfgTriplane).grids.getD 1 [] =
      [[1, 2, 8, 6], [1, 2, 10, 6], [1, 2, 10, 8]] := by
  have h : KPlane.ofConfig 3 cfgTriplane = .ok (theKP 3 cfgTriplane) := rfl
  have hc := c5_grid_decomposition 3 cfgTriplane _ h
  have hlen : (1 : ℕ) < (theKP 3 cfgTriplane).grids.length := by
    rw [hc.1]
    decide
  rw [hc.2.1 1 hlen]
  decide

/-- C1 witness: a nonempty two-scale concatenating configuration where the
amended formula gives `out_dim * num_scales = 4`. -/
theorem c1_n_output_dims_witness :
    (theKP 3 cfgTriplane).n_output_dims = 4 := by
  have h : KPlane.ofConfig 3 cfgTriplane = .ok (theKP 3 cfgTriplane) := rfl
  have hc := c1_n_output_dims 3 cfgTriplane _ h
  rw [hc.1]
  decide

/-- C6: the per-scale resolution keeps the base list's length, multiplies
exactly its first 3 entries by the scale multiplier, leaves every further
(e.g. temporal) entry unchanged, and scale `s` of a constructed encoder is
built from the base configuration's resolution and multiplier `s` alone —
never from the previous scale. -/
theorem c6_resolution_scaling (ch : ℕ) (cfg : Config) (kp : KPlane)
    (h : KPlane.ofConfig ch cfg = .ok kp) :
    (∀ (m : ℕ) (r : List ℕ),
      (derivedReso m r).length = r.length ∧
      (∀ i, i < 3 → (derivedReso m r)[i]? = r[i]?.map (· * m)) ∧
      (∀ i, 3 ≤ i → (derivedReso m r)[i]? = r[i]?)) ∧
    (∀ s, s < kp.grids.length →
      kp.grids.getD s [] =
        planesFor cfg.grid_config ((multipliersOf cfg).getD s 0)) := by
  obtain ⟨h1, h2, rfl⟩ := ofConfig_ok_inv ch cfg kp h
  constructor
  · intro m r
    refine ⟨derivedReso_length m r, ?_, ?_⟩
    · intro i hi
      rw [derivedReso, List.getElem?_append, List.length_map, List.length_take]
      by_cases hlt : i < min 3 r.length
      · rw [if_pos hlt, List.getElem?_map, List.getElem?_take, if_pos hi]
      · rw [if_neg hlt]
        have hge : r.length ≤ i := by omega
        have h2' : (r.drop 3).length ≤ i - min 3 r.length := by
          rw [List.length_drop]
          omega
        rw [List.getElem?_eq_none h2', List.getElem?_eq_none hge]
        rfl
    · intro i hi
      rw [derivedReso, List.getElem?_append, List.length_map, List.length_take]
      rw [if_neg (by omega), List.getElem?_drop]
      by_cases h3 : 3 ≤ r.length
      · congr 1
        omega
      · rw [List.getElem?_eq_none (by omega), List.getElem?_eq_none (by omega)]
  · intro s hs
    have hs' : s < (multipliersOf cfg).length := by simpa using hs
    rw [List.getD_eq_getElem?_getD, List.getElem?_map,
      List.getElem?_eq_getElem hs', List.getD_eq_getElem?_getD,
      List.getElem?_eq_getElem hs']
    rfl

/-- Witness for C6: a 4-entry resolution with a temporal axis, multiplier 2. -/
theorem c6_resolution_scaling_witness :
    (derivedReso 2 [3, 4, 5, 7])[1]? = some 8 ∧
      (derivedReso 2 [3, 4, 5, 7])[3]? = some 7 ∧
      (theKP 3 cfgTriplane).grids.getD 0 [] =
        planesFor cfgTriplane.grid_config 1 := by
  have h : KPlane.ofConfig 3 cfgTriplane = .ok (theKP 3 cfgTriplane) := rfl
  have hc := c6_resolution_scaling 3 cfgTriplane _ h
  refine ⟨?_, ?_, ?_⟩
  · rw [(hc.1 2 [3, 4, 5, 7]).2.1 1 (by omega)]
    decide
  · rw [(hc.1 2 [3, 4, 5, 7]).2.2 3 (by omega)]
    decide
  · have hlen : (0 : ℕ) < (theKP 3 cfgTriplane).grids.length := by decide
    rw [hc.2 0 hlen]
    decide

/-- C7: initialization policy of `_init_grid_param` — when `in_dim = 4` a
combination containing axis 3 gets the all-ones fill, any other combination
gets the uniform fill, whose draws stay inside `[0.1, 0.5]`; for
`D = 4, K = 2` the time-plane pattern is exactly
`(0,1) no, (0,2) no, (0,3) yes, (1,2) no, (1,3) yes, (2,3) yes`. -/
theorem c7_initialization (grid_nd in_dim : ℕ) (rand : ℕ → ℕ → ℕ → ℕ → ℚ)
    (hrand : ∀ ci c j i, 1/10 ≤ rand ci c j i ∧ rand ci c j i ≤ 1/2) :
    (∀ p ∈ init_grid_param_vals grid_nd in_dim rand,
      (in_dim = 4 ∧ 3 ∈ p.1 → ∀ c j i, p.2 c j i = 1) ∧
      (¬(in_dim = 4 ∧ 3 ∈ p.1) →
        ∀ c j i, 1/10 ≤ p.2 c j i ∧ p.2 c j i ≤ 1/2)) ∧
    (init_grid_param_vals 2 4 rand).map (fun p => (p.1, timePlaneComb 4 p.1)) =
      [([0, 1], false), ([0, 2], false), ([0, 3], true),
       ([1, 2], false), ([1, 3], true), ([2, 3], true)] := by
  constructor
  · intro p hp
    rcases List.mem_map.mp hp with ⟨q, hmem, rfl⟩
    constructor
    · intro hcond c j i
      have ht : timePlaneComb in_dim q.2 = true := by
        simp only [timePlaneComb, decide_eq_true_eq]
        exact hcond
      simp [ht]
    · intro hn c j i
      have ht : timePlaneComb in_dim q.2 = false := by
        simp only [timePlaneComb, decide_eq_false_iff_not]
        exact hn
      simp only [ht, Bool.false_eq_true, if_false]
      exact hrand q.1 c j i
  · rfl

/-- Witness for C7 at the constant draw `1/4`: entry `(0,0,0)` of each of
the six `D = 4, K = 2` planes, ones exactly at the time combinations. -/
theorem c7_initialization_witness :
    ((init_grid_param_vals 2 4 (fun _ _ _ _ => (1 : ℚ)/4)).map
        (fun p => p.2 0 0 0)) = [1/4, 1/4, 1, 1/4, 1, 1] ∧
      (init_grid_param_vals 2 4 (fun _ _ _ _ => (1 : ℚ)/4)).map
          (fun p => (p.1, timePlaneComb 4 p.1)) =
        [([0, 1], false), ([0, 2], false), ([0, 3], true),
         ([1, 2], false), ([1, 3], true), ([2, 3], true)] := by
  have hc := c7_initialization 2 4 (fun _ _ _ _ => (1 : ℚ)/4)
    (fun ci c j i => by norm_num)
  exact ⟨by rfl, hc.2⟩

/-! ## Claim C4 -/

theorem gridSampleShape_ne_unsupportedDim (i g : List ℕ) :
    gridSampleShape i g ≠ .error .unsupportedDim := by
  unfold gridSampleShape
  split
  · split <;> simp
  · split <;> simp
  · simp

theorem gswTail_ne_unsupportedDim (r : Except KErr (List ℕ)) (b fd n : ℕ)
    (h : r ≠ .error .unsupportedDim) :
    gswTail r b fd n ≠ .error .unsupportedDim := by
  cases r with
  | error e => simpa [gswTail] using h
  | ok outS =>
    simp only [gswTail]
    split <;> simp

/-- C4: the generic grid-sampling primitive fails with the
unsupported-dimension error exactly when the size of the last axis of the
coordinate batch is neither 2 nor 3 — for every grid, so the check precedes
any interpolation — and this error is never produced when that size is 2 or
3 (other runtime failures remain possible). -/
theorem c4_unsupported_dimension (gridShape coordsShape : List ℕ) :
    (coordsShape.getLastD 0 ≠ 2 → coordsShape.getLastD 0 ≠ 3 →
      gswShape gridShape coordsShape = .error .unsupportedDim) ∧
    (coordsShape.getLastD 0 = 2 ∨ coordsShape.getLastD 0 = 3 →
      gswShape gridShape coordsShape ≠ .error .unsupportedDim) := by
  constructor
  · intro h2 h3
    rw [gswShape, if_neg]
    rintro (h | h)
    · exact h2 h
    · exact h3 h
  · intro h
    rw [gswShape, if_pos h]
    split
    · exact gswTail_ne_unsupportedDim _ _ _ _
        (gridSampleShape_ne_unsupportedDim _ _)
    · simp

/-- Witness for C4: coordinate dimensionality 4 raises, 2 does not. -/
theorem c4_unsupported_dimension_witness :
    gswShape [1, 2, 4, 4] [5, 4] = .error .unsupportedDim ∧
      gswShape [1, 2, 4, 4] [5, 2] ≠ .error .unsupportedDim := by
  exact ⟨(c4_unsupported_dimension [1, 2, 4, 4] [5, 4]).1 (by decide) (by decide),
    (c4_unsupported_dimension [1, 2, 4, 4] [5, 2]).2 (by decide)⟩

/-! ## Claim C2: shape contract of `forward` -/

theorem squeezeShape_prod (s : List ℕ) : (squeezeShape s).prod = s.prod := by
  induction s with
  | nil => rfl
  | cons x xs ih =>
    by_cases hx : x = 1
    · have h1 : squeezeShape (x :: xs) = squeezeShape xs := by
        simp [squeezeShape, hx]
      rw [h1, ih, List.prod_cons, hx, one_mul]
    · have h1 : squeezeShape (x :: xs) = x :: squeezeShape xs := by
        simp [squeezeShape, hx]
      rw [h1, List.prod_cons, List.prod_cons, ih]

theorem broadcastRev_self (l : List ℕ) : broadcastRev l l = .ok l := by
  induction l with
  | nil => rfl
  | cons x xs ih => simp [broadcastRev, ih]

theorem broadcastShapes_self (a : List ℕ) : broadcastShapes a a = .ok a := by
  rw [broadcastShapes, broadcastRev_self]
  simp

/-- Interpolating one `[1, C, *spatial]` plane (2 or 3 spatial axes) at a
2-D `[N, K]` coordinate batch: the wrapper unsqueezes the coordinates,
samples, reshapes to `[1, C, N]`, transposes and squeezes. -/
theorem gswShape_plane (K C N : ℕ) (spatial : List ℕ)
    (hK : K = 2 ∨ K = 3) (hlen : spatial.length = K) :
    gswShape (1 :: C :: spatial) [N, K] = .ok (squeezeShape [1, N, C]) := by
  rcases hK with rfl | rfl
  · obtain ⟨a, b, rfl⟩ := List.length_eq_two.mp hlen
    simp [gswShape, viewCoords, gridSampleShape, gswTail, mul_comm]
  · obtain ⟨a, b, c, rfl⟩ := List.length_eq_three.mp hlen
    simp [gswShape, viewCoords, gridSampleShape, gswTail, mul_comm]

theorem viewFlat_squeeze (N C : ℕ) (hC : 1 ≤ C) :
    viewFlat (squeezeShape [1, N, C]) C = .ok [N, C] := by
  have hp : (squeezeShape [1, N, C]).prod = N * C := by
    rw [squeezeShape_prod]
    simp
  rw [viewFlat, hp]
  rw [if_pos ⟨by omega, Nat.mul_mod_left N C⟩]
  rw [Nat.mul_div_cancel N (by omega : 0 < C)]

/-- Folding the per-plane interpolations of one scale over planes shaped
`[1, C, *spatial]` with `K`-combinations: the accumulator ends at `[N, C]`. -/
theorem scaleShapeAux_planes (N D K C : ℕ) (hK : K = 2 ∨ K = 3) (hC : 1 ≤ C) :
    ∀ items : List (List ℕ × List ℕ),
      (∀ p ∈ items, p.1.length = K ∧
        ∃ spatial : List ℕ, spatial.length = K ∧ p.2 = 1 :: C :: spatial) →
      ∀ acc : Option (List ℕ),
        ((acc = none ∧ items ≠ []) ∨ acc = some [N, C]) →
        scaleShapeAux [N, D] acc items = .ok (some [N, C]) := by
  intro items
  induction items with
  | nil =>
    intro _ acc hacc
    rcases hacc with ⟨_, hne⟩ | rfl
    · exact absurd rfl hne
    · rfl
  | cons p rest ih =>
    intro hitems acc hacc
    obtain ⟨comb, plane⟩ := p
    obtain ⟨hlen, spatial, hsl, hp2⟩ := hitems (comb, plane) (List.mem_cons_self _ _)
    simp only at hlen hp2
    subst hp2
    have hstep : gswShape (1 :: C :: spatial) ([N, D].dropLast ++ [comb.length]) =
        .ok (squeezeShape [1, N, C]) := by
      have hco : ([N, D].dropLast ++ [comb.length]) = [N, comb.length] := rfl
      rw [hco, hlen]
      exact gswShape_plane K C N spatial (by omega) hsl
    have hgd : (1 :: C :: spatial).getD 1 0 = C := rfl
    have htail : ∀ q ∈ rest, q.1.length = K ∧
        ∃ sp : List ℕ, sp.length = K ∧ q.2 = 1 :: C :: sp :=
      fun q hq => hitems q (List.mem_cons_of_mem _ hq)
    simp only [scaleShapeAux, hstep, hgd, viewFlat_squeeze N C hC]
    rcases hacc with ⟨rfl, _⟩ | rfl
    · simp only [accMul]
      exact ih htail (some [N, C]) (Or.inr rfl)
    · simp only [accMul, broadcastShapes_self]
      exact ih htail (some [N, C]) (Or.inr rfl)

theorem foldl_add_getLastD_replicate (N C : ℕ) :
    ∀ (k : ℕ) (init : ℕ),
      (List.replicate k [N, C]).foldl (fun a t => a + t.getLastD 0) init =
        init + k * C := by
  intro k
  induction k with
  | zero => intro init; simp
  | succ k ih =>
    intro init
    rw [List.replicate_succ, List.foldl_cons, ih]
    have : ([N, C].getLastD 0) = C := rfl
    rw [this]
    ring

theorem catShapes_replicate (S N C : ℕ) (hS : 1 ≤ S) :
    catShapes (List.replicate S [N, C]) = .ok [N, S * C] := by
  obtain ⟨s, rfl⟩ : ∃ s, S = s + 1 := ⟨S - 1, by omega⟩
  rw [List.replicate_succ, catShapes, if_pos]
  · have hfold : (([N, C] :: List.replicate s [N, C]).foldl
        (fun a t => a + t.getLastD 0) 0) = (s + 1) * C := by
      rw [← List.replicate_succ, foldl_add_getLastD_replicate]
      omega
    rw [hfold]
    rfl
  · rw [List.all_eq_true]
    intro t ht
    rw [List.eq_of_mem_replicate ht]
    simp

theorem scalesConcat_ok (ptsShape : List ℕ) (combs : List (List ℕ)) (N C : ℕ) :
    ∀ grids : List (List (List ℕ)),
      (∀ g ∈ grids, scaleShapeAux ptsShape none (combs.zip g) = .ok (some [N, C])) →
      scalesConcat ptsShape combs grids = .ok (List.replicate grids.length [N, C]) := by
  intro grids
  induction grids with
  | nil => intro _; rfl
  | cons g gs ih =>
    intro h
    simp only [scalesConcat, h g (List.mem_cons_self _ _),
      ih (fun g' hg' => h g' (List.mem_cons_of_mem _ hg')),
      List.length_cons, List.replicate_succ]

theorem scalesSum_ok (ptsShape : List ℕ) (combs : List (List ℕ)) (N C : ℕ) :
    ∀ grids : List (List (List ℕ)),
      (∀ g ∈ grids, scaleShapeAux ptsShape none (combs.zip g) = .ok (some [N, C])) →
      ∀ acc : Option (List ℕ),
        ((acc = none ∧ grids ≠ []) ∨ acc = some [N, C]) →
        scalesSum ptsShape combs acc grids = .ok (some [N, C]) := by
  intro grids
  induction grids with
  | nil =>
    intro _ acc hacc
    rcases hacc with ⟨_, hne⟩ | rfl
    · exact absurd rfl hne
    · rfl
  | cons g gs ih =>
    intro h acc hacc
    have htail := fun g' hg' => h g' (List.mem_cons_of_mem _ hg')
    simp only [scalesSum, h g (List.mem_cons_self _ _)]
    rcases hacc with ⟨rfl, _⟩ | rfl
    · simp only [accMul]
      exact ih htail (some [N, C]) (Or.inr rfl)
    · simp only [accMul, broadcastShapes_self]
      exact ih htail (some [N, C]) (Or.inr rfl)

theorem combinations_ne_nil (K D : ℕ) (h : K ≤ D) :
    combinations K (List.range D) ≠ [] := by
  have hlen := length_combinations K (List.range D)
  rw [List.length_range] at hlen
  have hpos : 0 < D.choose K := Nat.choose_pos h
  intro hnil
  rw [hnil] at hlen
  simp at hlen
  omega

/-- One scale of a valid configuration interpolated at a `[N, D]` batch
yields shape `[N, out_dim]`. -/
theorem scaleShapeAux_planesFor (gc : GridConfig) (m N : ℕ)
    (hK : gc.grid_dimensions = 2 ∨ gc.grid_dimensions = 3)
    (hC : 1 ≤ gc.output_coordinate_dim)
    (hKD : gc.grid_dimensions ≤ gc.input_coordinate_dim) :
    scaleShapeAux [N, gc.input_coordinate_dim] none
      ((combinations gc.grid_dimensions
        (List.range gc.input_coordinate_dim)).zip (planesFor gc m)) =
      .ok (some [N, gc.output_coordinate_dim]) := by
  have hzip : (combinations gc.grid_dimensions
      (List.range gc.input_coordinate_dim)).zip (planesFor gc m) =
      (combinations gc.grid_dimensions
        (List.range gc.input_coordinate_dim)).map
        (fun c => (c, 1 :: gc.output_coordinate_dim ::
          c.reverse.map (fun cc =>
            (derivedReso m gc.resolution).getD cc 0))) := by
    unfold planesFor
    have := List.zip_map' id
      (fun c => 1 :: gc.output_coordinate_dim ::
        c.reverse.map (fun cc => (derivedReso m gc.resolution).getD cc 0))
      (combinations gc.grid_dimensions (List.range gc.input_coordinate_dim))
    simpa using this
  rw [hzip]
  apply scaleShapeAux_planes N gc.input_coordinate_dim gc.grid_dimensions
    gc.output_coordinate_dim hK hC
  · intro p hp
    rcases List.mem_map.mp hp with ⟨c, hcm, rfl⟩
    refine ⟨length_of_mem_combinations _ _ _ hcm, _, ?_, rfl⟩
    simp [length_of_mem_combinations _ _ _ hcm]
  · refine Or.inl ⟨rfl, ?_⟩
    simp only [ne_eq, List.map_eq_nil_iff]
    exact combinations_ne_nil _ _ hKD

/-- Valid two-scale concatenating configuration and a rank-3 point batch:
the output of `forward` is a 2-D tensor `[2, 4]`, not the claimed
`[1, 2, n_output_dims]` — `grid_sample_wrapper`'s `view(-1, feature_dim)`
flattens all leading axes. -/
theorem c2_counterexample :
    (theKP 3 cfgTriplane).forwardShape [1, 2, 3] = .ok [2, 4] ∧
      (theKP 3 cfgTriplane).n_output_dims = 4 ∧
      ([2, 4] : List ℕ) ≠ [1, 2, 4] := by
  exact ⟨rfl, rfl, by decide⟩

/-- C2 (amended): for 2-D point batches `[N, D]` with
`D = input_coordinate_dim`, a valid configuration (`grid_dimensions` 2 or
3, `out_dim ≥ 1`, and `multiscale_res` nonempty whenever features are
concatenated), `forward` returns shape exactly `[N, n_output_dims]` — for
every `N` and every `out_dim ≥ 1`, including `out_dim = 1`.  Point batches
of higher rank are not returned with their leading shape preserved (see the
counterexample: they are flattened to 2-D or rejected). -/
theorem c2_shape_contract (ch N : ℕ) (cfg : Config) (kp : KPlane)
    (h : KPlane.ofConfig ch cfg = .ok kp)
    (hK : cfg.grid_config.grid_dimensions = 2 ∨ cfg.grid_config.grid_dimensions = 3)
    (hC : 1 ≤ cfg.grid_config.output_coordinate_dim)
    (hcc : cfg.concat_features_across_scales = true → cfg.multiscale_res ≠ []) :
    kp.forwardShape [N, cfg.grid_config.input_coordinate_dim] =
      .ok [N, kp.n_output_dims] := by
  obtain ⟨h1, h2, rfl⟩ := ofConfig_ok_inv ch cfg kp h
  have hscale : ∀ g ∈ (multipliersOf cfg).map (planesFor cfg.grid_config),
      scaleShapeAux [N, cfg.grid_config.input_coordinate_dim] none
        ((combinations cfg.grid_config.grid_dimensions
          (List.range cfg.grid_config.input_coordinate_dim)).zip g) =
        .ok (some [N, cfg.grid_config.output_coordinate_dim]) := by
    intro g hg
    rcases List.mem_map.mp hg with ⟨m, _, rfl⟩
    exact scaleShapeAux_planesFor cfg.grid_config m N hK hC h2
  have hlast : ([N, cfg.grid_config.input_coordinate_dim].getLastD 0) =
      cfg.grid_config.input_coordinate_dim := rfl
  show interpolate_ms_feature_shape [N, cfg.grid_config.input_coordinate_dim]
      ((multipliersOf cfg).map (planesFor cfg.grid_config))
      cfg.grid_config.grid_dimensions cfg.concat_features_across_scales = _
  rw [interpolate_ms_feature_shape]
  cases hconc : cfg.concat_features_across_scales with
  | false =>
    simp only [hlast, Bool.false_eq_true, if_false]
    rw [scalesSum_ok _ _ N cfg.grid_config.output_coordinate_dim _ hscale none
      (Or.inl ⟨rfl, by
        simp only [ne_eq, List.map_eq_nil_iff]
        exact multipliersOf_ne_nil cfg⟩)]
  | true =>
    simp only [hlast, if_true]
    rw [scalesConcat_ok _ _ N cfg.grid_config.output_coordinate_dim _ hscale]
    rw [List.length_map]
    show catShapes (List.replicate (multipliersOf cfg).length
        [N, cfg.grid_config.output_coordinate_dim]) =
      Except.ok [N, cfg.grid_config.output_coordinate_dim *
        cfg.multiscale_res.length]
    have hS : 1 ≤ (multipliersOf cfg).length :=
      List.length_pos.mpr (multipliersOf_ne_nil cfg)
    rw [catShapes_replicate _ _ _ hS]
    have hmult : multipliersOf cfg = cfg.multiscale_res := by
      rw [multipliersOf, if_neg (hcc hconc)]
    rw [hmult, Nat.mul_comm]

/-- Witness for C2's amended theorem: `N = 7`, triplane configuration,
output `[7, 4]`; and the `out_dim = 1` case at `N = 5`. -/
theorem c2_shape_contract_witness :
    (theKP 3 cfgTriplane).forwardShape [7, 3] = .ok [7, 4] ∧
      (theKP 3 cfgEmptyConcat).n_output_dims = 0 := by
  constructor
  · have h : KPlane.ofConfig 3 cfgTriplane = .ok (theKP 3 cfgTriplane) := rfl
    have hc := c2_shape_contract 3 7 cfgTriplane _ h (by decide) (by decide)
      (fun _ => by decide)
    have h3 : cfgTriplane.grid_config.input_coordinate_dim = 3 := rfl
    rw [h3] at hc
    rw [hc]
    rfl
  · rfl

/-! ## Value lemmas on the bilinear sampler -/

theorem srcIndex_bounds (x : ℚ) (size : ℕ) (h : 1 ≤ size) :
    0 ≤ srcIndex x size ∧ srcIndex x size ≤ (size : ℚ) - 1 := by
  have hsz : (1 : ℚ) ≤ (size : ℚ) := by exact_mod_cast h
  rw [srcIndex, clampQ]
  exact ⟨le_max_left 0 _, max_le (by linarith) (min_le_left _ _)⟩

theorem srcIndex_neg_one (size : ℕ) : srcIndex (-1) size = 0 := by
  have h0 : unnorm (-1) size = 0 := by
    rw [unnorm]
    ring
  rw [srcIndex, h0, clampQ]
  exact max_eq_left (min_le_right _ _)

theorem srcIndex_le_neg_one (x : ℚ) (size : ℕ) (hs : 1 ≤ size) (hx : x ≤ -1) :
    srcIndex x size = 0 := by
  have hsz : (1 : ℚ) ≤ (size : ℚ) := by exact_mod_cast hs
  have hv : unnorm x size ≤ 0 := by
    rw [unnorm]
    have h1 : (x + 1) / 2 ≤ 0 := by linarith
    have h2 : (0 : ℚ) ≤ (size : ℚ) - 1 := by linarith
    nlinarith
  rw [srcIndex, clampQ, min_eq_right (by linarith)]
  exact max_eq_left hv

theorem srcIndex_ge_one (x : ℚ) (size : ℕ) (hs : 1 ≤ size) (hx : 1 ≤ x) :
    srcIndex x size = (size : ℚ) - 1 := by
  have hsz : (1 : ℚ) ≤ (size : ℚ) := by exact_mod_cast hs
  have hv : (size : ℚ) - 1 ≤ unnorm x size := by
    rw [unnorm]
    have h1 : (1 : ℚ) ≤ (x + 1) / 2 := by linarith
    nlinarith
  rw [srcIndex, clampQ, min_eq_left hv]
  exact max_eq_right (by linarith)

/-- Bounds on the floor of a clamped source index, and the dichotomy that
makes border clamping safe: either the fractional part is zero (so the
upper corner has weight zero) or the upper corner is still in bounds. -/
theorem floor_srcIndex_bounds (x : ℚ) (size : ℕ) (h : 1 ≤ size) :
    0 ≤ ⌊srcIndex x size⌋ ∧ ⌊srcIndex x size⌋ ≤ (size : ℤ) - 1 ∧
      (srcIndex x size - (⌊srcIndex x size⌋ : ℚ) = 0 ∨
        ⌊srcIndex x size⌋ + 1 ≤ (size : ℤ) - 1) := by
  obtain ⟨h0, h1⟩ := srcIndex_bounds x size h
  have hcast : ((size : ℚ) - 1) = (((size : ℤ) - 1 : ℤ) : ℚ) := by
    push_cast
    ring
  have hf0 : 0 ≤ ⌊srcIndex x size⌋ := Int.floor_nonneg.mpr h0
  have hf1 : ⌊srcIndex x size⌋ ≤ (size : ℤ) - 1 := by
    calc ⌊srcIndex x size⌋ ≤ ⌊(((size : ℤ) - 1 : ℤ) : ℚ)⌋ :=
          Int.floor_le_floor (hcast ▸ h1)
      _ = (size : ℤ) - 1 := Int.floor_intCast _
  refine ⟨hf0, hf1, ?_⟩
  by_cases hd : ⌊srcIndex x size⌋ + 1 ≤ (size : ℤ) - 1
  · exact Or.inr hd
  · left
    have heq : ⌊srcIndex x size⌋ = (size : ℤ) - 1 := by omega
    have hle : ((size : ℚ) - 1) ≤ (⌊srcIndex x size⌋ : ℚ) := by
      rw [heq]
      push_cast
      ring_nf
      exact le_refl _
    have hfl := Int.floor_le (srcIndex x size)
    linarith

theorem cornerVal_eq (P : Plane2) (k : ℚ) (ch : ℕ)
    (hval : ∀ c j i, j < P.H → i < P.W → P.val c j i = k) (j i : ℤ)
    (hj0 : 0 ≤ j) (hj1 : j ≤ (P.H : ℤ) - 1) (hi0 : 0 ≤ i) (hi1 : i ≤ (P.W : ℤ) - 1) :
    cornerVal P ch j i = k := by
  rw [cornerVal, if_pos ⟨hj0, by omega, hi0, by omega⟩]
  exact hval ch j.toNat i.toNat (by omega) (by omega)

/-- Bilinear interpolation of a constant grid is that constant: in-range
corners all carry the constant, and any out-of-range corner has weight 0. -/
theorem bilinearAt_const (P : Plane2) (k : ℚ) (c : ℕ) (ix iy : ℚ)
    (hval : ∀ ch j i, j < P.H → i < P.W → P.val ch j i = k)
    (hx0 : 0 ≤ ⌊ix⌋) (hx1 : ⌊ix⌋ ≤ (P.W : ℤ) - 1)
    (hxd : ix - (⌊ix⌋ : ℚ) = 0 ∨ ⌊ix⌋ + 1 ≤ (P.W : ℤ) - 1)
    (hy0 : 0 ≤ ⌊iy⌋) (hy1 : ⌊iy⌋ ≤ (P.H : ℤ) - 1)
    (hyd : iy - (⌊iy⌋ : ℚ) = 0 ∨ ⌊iy⌋ + 1 ≤ (P.H : ℤ) - 1) :
    bilinearAt P c ix iy = k := by
  rw [bilinearAt]
  have h00 : cornerVal P c ⌊iy⌋ ⌊ix⌋ = k :=
    cornerVal_eq P k c hval _ _ hy0 hy1 hx0 hx1
  rcases hxd with hxz | hxi <;> rcases hyd with hyz | hyi
  · rw [h00, hxz, hyz]
    ring
  · have h10 : cornerVal P c (⌊iy⌋ + 1) ⌊ix⌋ = k :=
      cornerVal_eq P k c hval _ _ (by omega) (by omega) hx0 hx1
    rw [h00, h10, hxz]
    ring
  · have h01 : cornerVal P c ⌊iy⌋ (⌊ix⌋ + 1) = k :=
      cornerVal_eq P k c hval _ _ hy0 hy1 (by omega) (by omega)
    rw [h00, h01, hyz]
    ring
  · have h01 : cornerVal P c ⌊iy⌋ (⌊ix⌋ + 1) = k :=
      cornerVal_eq P k c hval _ _ hy0 hy1 (by omega) (by omega)
    have h10 : cornerVal P c (⌊iy⌋ + 1) ⌊ix⌋ = k :=
      cornerVal_eq P k c hval _ _ (by omega) (by omega) hx0 hx1
    have h11 : cornerVal P c (⌊iy⌋ + 1) (⌊ix⌋ + 1) = k :=
      cornerVal_eq P k c hval _ _ (by omega) (by omega) (by omega) (by omega)
    rw [h00, h01, h10, h11]
    ring

theorem gridSample2d_const (P : Plane2) (k : ℚ) (c : ℕ) (x y : ℚ)
    (hH : 1 ≤ P.H) (hW : 1 ≤ P.W)
    (hval : ∀ ch j i, j < P.H → i < P.W → P.val ch j i = k) :
    gridSample2d P c x y = k := by
  obtain ⟨hx0, hx1, hxd⟩ := floor_srcIndex_bounds x P.W hW
  obtain ⟨hy0, hy1, hyd⟩ := floor_srcIndex_bounds y P.H hH
  exact bilinearAt_const P k c _ _ hval hx0 hx1 hxd hy0 hy1 hyd

theorem gridSample2d_zero (P : Plane2) (c : ℕ) (x y : ℚ)
    (hval : ∀ ch j i, P.val ch j i = 0) :
    gridSample2d P c x y = 0 := by
  have hcv : ∀ j i : ℤ, cornerVal P c j i = 0 := by
    intro j i
    rw [cornerVal]
    split
    · exact hval c j.toNat i.toNat
    · rfl
  rw [gridSample2d, bilinearAt, hcv, hcv, hcv, hcv]
  ring

theorem foldl_mul_eq_prod (f : List ℕ × Plane2 → ℚ) :
    ∀ (l : List (List ℕ × Plane2)) (init : ℚ),
      l.foldl (fun a p => a * f p) init = init * (l.map f).prod := by
  intro l
  induction l with
  | nil => intro init; simp
  | cons p rest ih =>
    intro init
    rw [List.foldl_cons, ih, List.map_cons, List.prod_cons, mul_assoc]

/-! ## Claims C8, C9, C10 -/

/-- C8: within a scale the accumulator starts at the multiplicative
identity (an empty plane list contributes 1), a scale of constant-1 planes
contributes exactly 1 at every point and channel, a single plane sampling
to 0 zeroes the scale's contribution at that point, and an all-zero plane
samples to 0 everywhere. -/
theorem c8_multiplicative_composition (grid : List Plane2)
    (combs : List (List ℕ)) (pt : ℕ → ℚ) (c : ℕ) :
    scaleInterp [] combs pt c = 1 ∧
    ((∀ P ∈ grid, 1 ≤ P.H ∧ 1 ≤ P.W ∧
        ∀ ch j i, j < P.H → i < P.W → P.val ch j i = 1) →
      scaleInterp grid combs pt c = 1) ∧
    (∀ pr ∈ combs.zip grid, sample2 pr.2 c pr.1 pt = 0 →
      scaleInterp grid combs pt c = 0) ∧
    (∀ P : Plane2, (∀ ch j i, P.val ch j i = 0) →
      ∀ comb, sample2 P c comb pt = 0) := by
  refine ⟨?_, ?_, ?_, ?_⟩
  · simp [scaleInterp]
  · intro hconst
    rw [scaleInterp, foldl_mul_eq_prod, one_mul]
    apply List.prod_eq_one
    intro v hv
    rcases List.mem_map.mp hv with ⟨pr, hpr, rfl⟩
    have hmem : pr.2 ∈ grid := (List.of_mem_zip hpr).2
    obtain ⟨hh, hw, hval⟩ := hconst pr.2 hmem
    exact gridSample2d_const pr.2 1 c _ _ hh hw hval
  · intro pr hpr hzero
    rw [scaleInterp, foldl_mul_eq_prod, one_mul]
    exact List.prod_eq_zero (List.mem_map.mpr ⟨pr, hpr, hzero⟩)
  · intro P hval comb
    exact gridSample2d_zero P c _ _ hval

/-- All-ones 2x2 single-channel plane. -/
def onesPlane : Plane2 := ⟨1, 2, 2, fun _ _ _ => 1⟩

/-- All-zero 2x2 single-channel plane. -/
def zeroPlane : Plane2 := ⟨1, 2, 2, fun _ _ _ => 0⟩

/-- Witness for C8: three constant-1 planes give scale contribution 1;
replacing the first plane by zero gives contribution 0. -/
theorem c8_multiplicative_composition_witness :
    scaleInterp [onesPlane, onesPlane, onesPlane]
      (combinations 2 (List.range 3)) (fun _ => 0) 0 = 1 ∧
    scaleInterp [zeroPlane, onesPlane, onesPlane]
      (combinations 2 (List.range 3)) (fun _ => 0) 0 = 0 := by
  constructor
  · apply (c8_multiplicative_composition [onesPlane, onesPlane, onesPlane]
      (combinations 2 (List.range 3)) (fun _ => 0) 0).2.1
    intro P hP
    have hP' : P = onesPlane := by
      simp only [List.mem_cons, List.not_mem_nil, or_false] at hP
      rcases hP with h | h | h <;> exact h
    subst hP'
    exact ⟨by norm_num [onesPlane], by norm_num [onesPlane],
      fun ch j i _ _ => rfl⟩
  · have hc := c8_multiplicative_composition [zeroPlane, onesPlane, onesPlane]
      (combinations 2 (List.range 3)) (fun _ => 0) 0
    have hzip : (combinations 2 (List.range 3)).zip
        [zeroPlane, onesPlane, onesPlane] =
        [([0, 1], zeroPlane), ([0, 2], onesPlane), ([1, 2], onesPlane)] := rfl
    apply hc.2.2.1 ([0, 1], zeroPlane)
    · rw [hzip]
      exact List.mem_cons_self _ _
    · exact hc.2.2.2 zeroPlane (fun _ _ _ => rfl) [0, 1]

/-- Bilinear blend at integer source indices picks out a single cell. -/
theorem bilinearAt_intCast (P : Plane2) (c : ℕ) (a b : ℤ) :
    bilinearAt P c ((a : ℚ)) ((b : ℚ)) = cornerVal P c b a := by
  rw [bilinearAt, Int.floor_intCast, Int.floor_intCast]
  simp

/-- C9: sampling is border-clamped, corner-aligned bilinear interpolation —
coordinates at or beyond `-1`/`+1` on either axis clamp to the first/last
cell (never wrapped or zero-padded), the exact corners `(-1, -1)` and
`(1, 1)` return the boundary cell values, and a sample at `x = -1` depends
only on the plane's first boundary column. -/
theorem c9_border_clamped_sampling (P Q : Plane2) (c : ℕ) (x y : ℚ)
    (hH : 1 ≤ P.H) (hW : 1 ≤ P.W) :
    (x ≤ -1 → gridSample2d P c x y = gridSample2d P c (-1) y) ∧
    (1 ≤ x → gridSample2d P c x y = gridSample2d P c 1 y) ∧
    (y ≤ -1 → gridSample2d P c x y = gridSample2d P c x (-1)) ∧
    (1 ≤ y → gridSample2d P c x y = gridSample2d P c x 1) ∧
    gridSample2d P c (-1) (-1) = P.val c 0 0 ∧
    gridSample2d P c 1 1 = P.val c (P.H - 1) (P.W - 1) ∧
    (Q.H = P.H → Q.W = P.W → (∀ ch j, Q.val ch j 0 = P.val ch j 0) →
      gridSample2d Q c (-1) y = gridSample2d P c (-1) y) := by
  have hWq : ((P.W : ℚ) - 1) = (((P.W : ℤ) - 1 : ℤ) : ℚ) := by
    push_cast
    ring
  have hHq : ((P.H : ℚ) - 1) = (((P.H : ℤ) - 1 : ℤ) : ℚ) := by
    push_cast
    ring
  refine ⟨?_, ?_, ?_, ?_, ?_, ?_, ?_⟩
  · intro hx
    rw [gridSample2d, gridSample2d, srcIndex_le_neg_one x P.W hW hx,
      srcIndex_neg_one]
  · intro hx
    rw [gridSample2d, gridSample2d, srcIndex_ge_one x P.W hW hx,
      srcIndex_ge_one 1 P.W hW le_rfl]
  · intro hy
    rw [gridSample2d, gridSample2d, srcIndex_le_neg_one y P.H hH hy,
      srcIndex_neg_one]
  · intro hy
    rw [gridSample2d, gridSample2d, srcIndex_ge_one y P.H hH hy,
      srcIndex_ge_one 1 P.H hH le_rfl]
  · rw [gridSample2d, srcIndex_neg_one, srcIndex_neg_one]
    have hb := bilinearAt_intCast P c 0 0
    simp only [Int.cast_zero] at hb
    rw [hb, cornerVal, if_pos ⟨le_refl 0, by omega, le_refl 0, by omega⟩]
    rfl
  · rw [gridSample2d, srcIndex_ge_one 1 P.W hW le_rfl,
      srcIndex_ge_one 1 P.H hH le_rfl, hWq, hHq, bilinearAt_intCast]
    rw [cornerVal, if_pos ⟨by omega, by omega, by omega, by omega⟩]
    have hj : ((P.H : ℤ) - 1).toNat = P.H - 1 := by omega
    have hi : ((P.W : ℤ) - 1).toNat = P.W - 1 := by omega
    rw [hj, hi]
  · intro hQH hQW hcol
    have hcv0 : ∀ j : ℤ, cornerVal Q c j 0 = cornerVal P c j 0 := by
      intro j
      rw [cornerVal, cornerVal, hQH, hQW]
      split
      · exact hcol c j.toNat
      · rfl
    rw [gridSample2d, gridSample2d, srcIndex_neg_one, srcIndex_neg_one,
      hQH, bilinearAt, bilinearAt]
    simp only [Int.floor_zero, Int.cast_zero, sub_zero, sub_self, mul_zero,
      zero_mul, add_zero, mul_one, one_mul, hcv0]

/-- Single-channel 2x3 ramp plane, `val c j i = 3 j + i`. -/
def rampPlane : Plane2 := ⟨1, 2, 3, fun _ j i => (j : ℚ) * 3 + (i : ℚ)⟩

/-- Witness for C9 on the ramp plane: clamping at `x = -7`, and both exact
corners. -/
theorem c9_border_clamped_sampling_witness :
    gridSample2d rampPlane 0 (-7) (1/2) = gridSample2d rampPlane 0 (-1) (1/2) ∧
    gridSample2d rampPlane 0 (-1) (-1) = rampPlane.val 0 0 0 ∧
    gridSample2d rampPlane 0 1 1 = rampPlane.val 0 1 2 := by
  have hc := c9_border_clamped_sampling rampPlane rampPlane 0 (-7) (1/2)
    (by norm_num [rampPlane]) (by norm_num [rampPlane])
  refine ⟨hc.1 (by norm_num), hc.2.2.2.2.1, ?_⟩
  have h6 := hc.2.2.2.2.2.1
  simpa [rampPlane] using h6

/-- C10: forward evaluation is a pure function of the current plane values
and the input points — the call returns the plane state unchanged (no
mutation of planes, points or hidden state: every tensor operation on the
forward path is out-of-place), and a second call on the state left by the
first produces the identical result (bit-for-bit determinism, no
randomness). -/
theorem c10_pure_forward (msGrids : List (List Plane2))
    (grid_dimensions D out_dim : ℕ) (concat_features : Bool)
    (pts : List (ℕ → ℚ)) :
    (forwardCall msGrids grid_dimensions D out_dim concat_features pts).2 =
      msGrids ∧
    forwardCall
        (forwardCall msGrids grid_dimensions D out_dim concat_features pts).2
        grid_dimensions D out_dim concat_features pts =
      forwardCall msGrids grid_dimensions D out_dim concat_features pts :=
  ⟨rfl, rfl⟩

end KPlaneSpec
